import Mathlib

/-!
Verification of the Stag-Hunt griduniverse bot decision core
(`dlgr/griduniverse/bots.py`) against its natural-language specification.

The probabilistic bots (`ProbabilisticBot`, `GeneralizedProbabilisticBot`,
`PartialObsGeneralizedProbabilisticBot`) are embedded shallowly: pure helper
methods become Lean functions over a linear ordered field (instantiated at ℚ
for executable checks and at ℝ when the softmax model needs `Real.exp`), and
the stateful per-tick updates become explicit state-passing functions.
Python's `math.exp` is kept as an explicit function parameter `e` of the
inference pipeline so that both the real-exponential semantics and the
floating-point underflow behaviour (`math.exp x = 0.0` for very negative `x`)
can be analysed against the same embedded control flow.
-/

namespace StagHunt

/-- Grid coordinates, `(row, col)` pairs of integers. -/
abbrev Pos := ℤ × ℤ

/-- `BaseGridUniverseBot.manhattan_distance`: `abs(x) + abs(y)` of the
coordinate differences. -/
def manhattan_distance (coord1 coord2 : Pos) : ℤ :=
  |coord1.1 - coord2.1| + |coord1.2 - coord2.2|

variable {α : Type} [LinearOrderedField α]

/-- The clamp `max(min(x, 1 - epsilon), epsilon)` applied to every entry in
`normalize`. -/
def clampEntry (epsilon x : α) : α :=
  max (min x (1 - epsilon)) epsilon

/-- `GeneralizedProbabilisticBot.normalize` (also
`PartialObsGeneralizedProbabilisticBot.normalize`, which is identical):
divide by the total (uniform fallback when the total is zero), clamp every
entry to `[epsilon, 1 - epsilon]`, then divide by the new total. -/
def normalize (prob_list : List α) (epsilon : α) : List α :=
  let total := prob_list.sum
  if total = 0 then
    List.replicate prob_list.length ((1 : α) / (prob_list.length : α))
  else
    let l1 := prob_list.map (fun v => v / total)
    let l2 := l1.map (fun v => clampEntry epsilon v)
    let total2 := l2.sum
    l2.map (fun v => v / total2)

/-! Basic facts about `clampEntry` and sums of clamped lists, used to settle
the `normalize` claim. -/

theorem clampEntry_mem (epsilon x : α) (h : epsilon ≤ 1 - epsilon) :
    epsilon ≤ clampEntry epsilon x ∧ clampEntry epsilon x ≤ 1 - epsilon := by
  unfold clampEntry
  constructor
  · exact le_max_right _ _
  · exact max_le (min_le_right _ _) h

theorem clampEntry_of_le (epsilon x : α) (h : x ≤ 1 - epsilon) :
    clampEntry epsilon x = max x epsilon := by
  unfold clampEntry
  rw [min_eq_left h]

theorem clampEntry_of_lt_eps (epsilon x : α) (heps : epsilon ≤ 1 - epsilon)
    (h : x ≤ epsilon) : clampEntry epsilon x = epsilon := by
  unfold clampEntry
  rw [min_eq_left (le_trans h heps), max_eq_right h]

theorem clampEntry_of_gt (epsilon x : α) (heps : epsilon ≤ 1 - epsilon)
    (h : 1 - epsilon ≤ x) : clampEntry epsilon x = 1 - epsilon := by
  unfold clampEntry
  rw [min_eq_right h, max_eq_left heps]

/-- Superadditivity of truncation: the sum of `min x ε` over a list of
non-negative values is at least `min` of the total and `ε`. -/
theorem sum_map_min_ge (u : List α) (epsilon : α) (heps : 0 ≤ epsilon)
    (hpos : ∀ x ∈ u, 0 ≤ x) :
    min u.sum epsilon ≤ (u.map (fun y => min y epsilon)).sum := by
  induction u with
  | nil => simp [heps]
  | cons x xs ih =>
    have hx : 0 ≤ x := hpos x (List.mem_cons_self x xs)
    have hxs : ∀ y ∈ xs, 0 ≤ y := fun y hy => hpos y (List.mem_cons_of_mem x hy)
    have ihx := ih hxs
    have hxs_sum : 0 ≤ xs.sum := List.sum_nonneg hxs
    simp only [List.map_cons, List.sum_cons]
    rcases le_total x epsilon with hxe | hxe
    · rcases le_total xs.sum epsilon with hse | hse
      · have h1 : min x epsilon = x := min_eq_left hxe
        have h2 : min xs.sum epsilon ≤ (xs.map (fun y => min y epsilon)).sum := ihx
        have h3 : min xs.sum epsilon = xs.sum := min_eq_left hse
        calc min (x + xs.sum) epsilon ≤ x + xs.sum := min_le_left _ _
        _ ≤ x + (xs.map (fun y => min y epsilon)).sum := by
            have := h3 ▸ h2; linarith
        _ = min x epsilon + (xs.map (fun y => min y epsilon)).sum := by rw [h1]
      · have h2 : min xs.sum epsilon ≤ (xs.map (fun y => min y epsilon)).sum := ihx
        have h3 : min xs.sum epsilon = epsilon := min_eq_right hse
        calc min (x + xs.sum) epsilon ≤ epsilon := min_le_right _ _
        _ ≤ min x epsilon + (xs.map (fun y => min y epsilon)).sum := by
            have h1 : 0 ≤ min x epsilon := le_min hx heps
            have := h3 ▸ h2; linarith
    · have h2 : min xs.sum epsilon ≤ (xs.map (fun y => min y epsilon)).sum := ihx
      have h1 : min x epsilon = epsilon := min_eq_right hxe
      have h4 : 0 ≤ min xs.sum epsilon := le_min hxs_sum heps
      calc min (x + xs.sum) epsilon ≤ epsilon := min_le_right _ _
      _ ≤ min x epsilon + (xs.map (fun y => min y epsilon)).sum := by
          rw [h1]; linarith

/-- Summed form of `max a b + min a b = a + b`. -/
theorem sum_map_max_add_min (u : List α) (epsilon : α) :
    (u.map (fun y => max y epsilon)).sum + (u.map (fun y => min y epsilon)).sum
      = u.sum + (u.length : α) * epsilon := by
  induction u with
  | nil => simp
  | cons x xs ih =>
    simp only [List.map_cons, List.sum_cons, List.length_cons]
    have hmm : max x epsilon + min x epsilon = x + epsilon := max_add_min x epsilon
    push_cast
    linarith

theorem sum_map_const_of_eq (u : List α) (f : α → α) (c : α)
    (h : ∀ x ∈ u, f x = c) : (u.map f).sum = (u.length : α) * c := by
  induction u with
  | nil => simp
  | cons x xs ih =>
    simp only [List.map_cons, List.sum_cons, List.length_cons]
    rw [h x (List.mem_cons_self x xs), ih (fun y hy => h y (List.mem_cons_of_mem x hy))]
    push_cast
    ring

theorem sum_map_div (u : List α) (t : α) :
    (u.map (fun v => v / t)).sum = u.sum / t := by
  induction u with
  | nil => simp
  | cons x xs ih => simp only [List.map_cons, List.sum_cons, ih, add_div]

/-- Bounds on the sum of the clamped once-normalized vector: it always lies
in `[1, 1 + (K - 2) * epsilon]` for a probability vector with `K ≥ 2`
entries. -/
theorem clamped_sum_bounds (w : List α) (epsilon : α) (heps0 : 0 < epsilon)
    (heps : epsilon < 1/2) (hsum : w.sum = 1) (hpos : ∀ x ∈ w, 0 ≤ x)
    (hlen : 2 ≤ w.length) :
    1 ≤ (w.map (clampEntry epsilon)).sum ∧
      (w.map (clampEntry epsilon)).sum ≤ 1 + ((w.length : α) - 2) * epsilon := by
  have heps' : epsilon ≤ 1 - epsilon := by linarith
  have hlen2 : (2 : α) ≤ (w.length : α) := by exact_mod_cast hlen
  by_cases hbig : ∃ y ∈ w, 1 - epsilon < y
  · -- one entry exceeds 1 - epsilon; all the others are below epsilon
    obtain ⟨y, hy, hygt⟩ := hbig
    obtain ⟨s, t, rfl⟩ := List.append_of_mem hy
    have hsum' : s.sum + (y + t.sum) = 1 := by
      simpa using hsum
    have hstpos : ∀ x ∈ s ++ t, 0 ≤ x := by
      intro x hx
      rcases List.mem_append.mp hx with hx | hx
      · exact hpos x (by simp [hx])
      · exact hpos x (by simp [hx])
    have hst_sum : (s ++ t).sum = 1 - y := by
      rw [List.sum_append]; linarith
    have hsmall : ∀ x ∈ s ++ t, x ≤ epsilon := by
      intro x hx
      have hle := List.single_le_sum hstpos x hx
      rw [hst_sum] at hle
      linarith
    have hclamps : ∀ x ∈ s ++ t, clampEntry epsilon x = epsilon := fun x hx =>
      clampEntry_of_lt_eps epsilon x heps' (hsmall x hx)
    have hcy : clampEntry epsilon y = 1 - epsilon :=
      clampEntry_of_gt epsilon y heps' (le_of_lt hygt)
    have hS : ((s ++ y :: t).map (clampEntry epsilon)).sum
        = 1 + ((s.length : α) + (t.length : α) - 1) * epsilon := by
      have hs := sum_map_const_of_eq s (clampEntry epsilon) epsilon
        (fun x hx => hclamps x (List.mem_append_left t hx))
      have ht := sum_map_const_of_eq t (clampEntry epsilon) epsilon
        (fun x hx => hclamps x (List.mem_append_right s hx))
      simp only [List.map_append, List.map_cons, List.sum_append, List.sum_cons]
      rw [hs, ht, hcy]
      ring
    have hlencast : ((s ++ y :: t).length : α) = (s.length : α) + (t.length : α) + 1 := by
      simp only [List.length_append, List.length_cons]
      push_cast
      ring
    rw [hS]
    constructor
    · have : (2 : α) ≤ (s.length : α) + (t.length : α) + 1 := by
        rw [← hlencast]; exact hlen2
      nlinarith
    · rw [hlencast]; nlinarith
  · -- every entry is at most 1 - epsilon
    push_neg at hbig
    have hclamp_eq : ∀ x ∈ w, clampEntry epsilon x = max x epsilon := fun x hx =>
      clampEntry_of_le epsilon x (hbig x hx)
    have hmapmax : w.map (clampEntry epsilon) = w.map (fun y => max y epsilon) :=
      List.map_congr_left hclamp_eq
    have hkey := sum_map_max_add_min w epsilon
    constructor
    · -- lower bound: max y epsilon ≥ y pointwise
      have hmin_le : (w.map (fun y => min y epsilon)).sum ≤ (w.length : α) * epsilon := by
        have := sum_map_const_of_eq w (fun _ => epsilon) epsilon (fun _ _ => rfl)
        calc (w.map (fun y => min y epsilon)).sum
            ≤ (w.map (fun _ => epsilon)).sum :=
              List.sum_le_sum (fun y _ => min_le_right y epsilon)
        _ = (w.length : α) * epsilon := this
      rw [hmapmax]
      linarith
    · by_cases hall : ∀ y ∈ w, y < epsilon
      · -- all entries are tiny: every clamp is epsilon
        have := sum_map_const_of_eq w (clampEntry epsilon) epsilon
          (fun x hx => clampEntry_of_lt_eps epsilon x heps' (le_of_lt (hall x hx)))
        rw [this]
        nlinarith
      · -- some entry is at least epsilon: the truncated sum is at least 2 * epsilon
        push_neg at hall
        obtain ⟨y, hy, hyge⟩ := hall
        obtain ⟨s, t, rfl⟩ := List.append_of_mem hy
        have hstpos : ∀ x ∈ s ++ t, 0 ≤ x := by
          intro x hx
          rcases List.mem_append.mp hx with hx | hx
          · exact hpos x (by simp [hx])
          · exact hpos x (by simp [hx])
        have hst_sum : (s ++ t).sum = 1 - y := by
          have : s.sum + (y + t.sum) = 1 := by simpa using hsum
          rw [List.sum_append]; linarith
        have hyle : y ≤ 1 - epsilon := hbig y hy
        have hmin_st : min ((s ++ t).sum) epsilon
            ≤ ((s ++ t).map (fun y => min y epsilon)).sum :=
          sum_map_min_ge (s ++ t) epsilon (le_of_lt heps0) hstpos
        have hmin_st' : epsilon ≤ ((s ++ t).map (fun y => min y epsilon)).sum := by
          rw [hst_sum] at hmin_st
          have : min (1 - y) epsilon = epsilon := min_eq_right (by linarith)
          rwa [this] at hmin_st
        have hminsum : epsilon + epsilon
            ≤ ((s ++ y :: t).map (fun y => min y epsilon)).sum := by
          have hysplit : ((s ++ y :: t).map (fun y => min y epsilon)).sum
              = ((s ++ t).map (fun y => min y epsilon)).sum + min y epsilon := by
            simp only [List.map_append, List.map_cons, List.sum_append, List.sum_cons]
            ring
          have : min y epsilon = epsilon := min_eq_right hyge
          rw [hysplit, this]
          linarith
        rw [hmapmax]
        rw [hsum] at hkey
        linarith

/-- C1, amended form, proved below as `normalize_spec`: for a list of `K ≥ 2`
non-negative rationals, `normalize` preserves the length, returns a vector
summing exactly to 1 whose entries lie in
`[epsilon / (1 + (K - 2) * epsilon), 1 - epsilon]`, and returns the uniform
vector on an all-zero input.  The original bound `[epsilon, 1 - epsilon]`
fails: the final renormalization divides the clamped entries by a sum that
can exceed 1 (see `normalize_entry_below_epsilon`). -/
theorem normalize_spec (l : List ℚ) (hlen : 2 ≤ l.length)
    (hpos : ∀ x ∈ l, 0 ≤ x) :
    (normalize l (1/50)).length = l.length ∧
    (normalize l (1/50)).sum = 1 ∧
    (∀ x ∈ normalize l (1/50),
      (1/50) / (1 + ((l.length : ℚ) - 2) * (1/50)) ≤ x ∧ x ≤ 1 - 1/50) ∧
    (l.sum = 0 →
      normalize l (1/50) = List.replicate l.length (1 / (l.length : ℚ))) := by
  have hn2 : (2 : ℚ) ≤ (l.length : ℚ) := by exact_mod_cast hlen
  have hn0 : (0 : ℚ) < (l.length : ℚ) := by linarith
  by_cases h0 : l.sum = 0
  · have hnorm : normalize l (1/50) = List.replicate l.length (1 / (l.length : ℚ)) := by
      unfold normalize
      rw [if_pos h0]
    refine ⟨by rw [hnorm]; simp, ?_, ?_, fun _ => hnorm⟩
    · rw [hnorm, List.sum_replicate, nsmul_eq_mul]
      field_simp
    · intro x hx
      rw [hnorm] at hx
      have hxeq := List.eq_of_mem_replicate hx
      subst hxeq
      constructor
      · rw [div_le_div_iff₀ (by linarith) hn0]
        nlinarith
      · rw [div_le_iff₀ hn0]
        nlinarith
  · have ht : 0 < l.sum :=
      lt_of_le_of_ne (List.sum_nonneg hpos) (Ne.symm h0)
    set t := l.sum with htdef
    set l1 := l.map (fun v => v / t) with hl1
    have hl1sum : l1.sum = 1 := by
      rw [hl1, sum_map_div, ← htdef, div_self h0]
    have hl1pos : ∀ x ∈ l1, 0 ≤ x := by
      intro x hx
      rw [hl1] at hx
      obtain ⟨v, hv, rfl⟩ := List.mem_map.mp hx
      exact div_nonneg (hpos v hv) (le_of_lt ht)
    have hl1len : l1.length = l.length := by rw [hl1]; simp
    set l2 := l1.map (fun v => clampEntry (1/50) v) with hl2
    have hl2len : l2.length = l.length := by rw [hl2]; simp [hl1len]
    have heps' : (1/50 : ℚ) ≤ 1 - 1/50 := by norm_num
    have hl2mem : ∀ x ∈ l2, (1/50 : ℚ) ≤ x ∧ x ≤ 1 - 1/50 := by
      intro x hx
      rw [hl2] at hx
      obtain ⟨v, _, rfl⟩ := List.mem_map.mp hx
      exact clampEntry_mem (1/50) v heps'
    have hSbounds := clamped_sum_bounds l1 (1/50) (by norm_num) (by norm_num)
      hl1sum hl1pos (by rw [hl1len]; exact hlen)
    rw [← hl2, hl1len] at hSbounds
    set S := l2.sum with hSdef
    have hS1 : 1 ≤ S := hSbounds.1
    have hS2 : S ≤ 1 + ((l.length : ℚ) - 2) * (1/50) := hSbounds.2
    have hSpos : 0 < S := by linarith
    have hnorm : normalize l (1/50) = l2.map (fun v => v / S) := by
      unfold normalize
      rw [if_neg h0]
    refine ⟨?_, ?_, ?_, fun hz => absurd hz h0⟩
    · rw [hnorm]; simp [hl2len]
    · rw [hnorm, sum_map_div, ← hSdef, div_self (ne_of_gt hSpos)]
    · intro x hx
      rw [hnorm] at hx
      obtain ⟨v, hv, rfl⟩ := List.mem_map.mp hx
      obtain ⟨hv1, hv2⟩ := hl2mem v hv
      have hB : 0 < 1 + ((l.length : ℚ) - 2) * (1/50) := by nlinarith
      constructor
      · rw [div_le_div_iff₀ hB hSpos]
        nlinarith
      · rw [div_le_iff₀ hSpos]
        nlinarith

/-- C1, counterexample to the original claim: `normalize [1, 0, 0]` has the
value `1/51 < 0.02 = epsilon` among its entries, so entries are not always in
`[epsilon, 1 - epsilon]`. -/
theorem normalize_entry_below_epsilon :
    normalize [(1 : ℚ), 0, 0] (1/50) = [49/51, 1/51, 1/51] ∧
      ((1 : ℚ)/51 ∈ normalize [(1 : ℚ), 0, 0] (1/50) ∧ (1 : ℚ)/51 < 1/50) := by
  have h : normalize [(1 : ℚ), 0, 0] (1/50) = [49/51, 1/51, 1/51] := by
    norm_num [normalize, clampEntry]
  refine ⟨h, by rw [h]; norm_num, by norm_num⟩

/-- C1, witness: `normalize_spec` applied to the concrete input `[1, 0, 0]`. -/
theorem normalize_spec_witness :
    (normalize [(1 : ℚ), 0, 0] (1/50)).sum = 1 ∧
      ∀ x ∈ normalize [(1 : ℚ), 0, 0] (1/50),
        (1/50 : ℚ) / (1 + (3 - 2) * (1/50)) ≤ x ∧ x ≤ 1 - 1/50 := by
  have h := normalize_spec [(1 : ℚ), 0, 0] (by norm_num)
    (by intro x hx; fin_cases hx <;> norm_num)
  refine ⟨h.2.1, ?_⟩
  intro x hx
  have := h.2.2.1 x hx
  norm_num at this ⊢
  exact this

/-! The intention-inference pipeline
(`GeneralizedProbabilisticBot.update_probabilities` inner loop, identical to
`PartialObsGeneralizedProbabilisticBot.infer_intention`).  Python's
`math.exp` is the explicit parameter `e`. -/

/-- Distances from position `p` to every animal, in animal order
(the `current_distance` / previous-distance lists of the update loop). -/
def distances_to (animals : List (String × Pos)) (p : Pos) : List ℤ :=
  animals.map (fun a => manhattan_distance p a.2)

/-- The per-animal `dist_t1 - dist_t0` list (`movement_deltas`). -/
def movement_deltas (animals : List (String × Pos)) (cur prev : Pos) : List ℤ :=
  List.zipWith (fun a b => a - b) (distances_to animals cur) (distances_to animals prev)

/-- `total_distance`: sum of current distances to all animals. -/
def total_distance (animals : List (String × Pos)) (cur : Pos) : ℤ :=
  (distances_to animals cur).sum

/-- The `rewards` list: `-movement_deltas[i] * distance_factor` where
`distance_factor` is `total_distance / current_distance[i]` guarded against a
zero distance, exactly as in the source. -/
def reward_list (animals : List (String × Pos)) (cur prev : Pos) : List α :=
  (List.range animals.length).map (fun i =>
    -(((movement_deltas animals cur prev).getD i 0 : ℤ) : α) *
      (if (distances_to animals cur).getD i 0 ≠ 0
       then ((total_distance animals cur : ℤ) : α) /
            (((distances_to animals cur).getD i 0 : ℤ) : α)
       else ((total_distance animals cur : ℤ) : α)))

/-- The `exponentials` list `e(alpha * reward_i)`. -/
def exponential_list (e : α → α) (alpha : α) (animals : List (String × Pos))
    (cur prev : Pos) : List α :=
  (reward_list animals cur prev).map (fun r => e (alpha * r))

/-- The `new_probabilities` construction loop: an entry is appended only on
the branch where `lhood_denom` is non-zero, exactly as in the source. -/
def mk_new_probabilities (prob exps : List α) (denom : α) (K : ℕ) : List α :=
  (List.range K).foldl
    (fun new_probs i =>
      if denom = 0 then new_probs
      else new_probs ++ [prob.getD i 0 * (exps.getD i 0 / denom)])
    []

/-- `PartialObsGeneralizedProbabilisticBot.infer_intention` (also the loop
body of `GeneralizedProbabilisticBot.update_probabilities`): rewards,
softmax likelihood, posterior, then `normalize` with the default
`epsilon = 0.02`. -/
def infer_intention (e : α → α) (alpha : α) (animals : List (String × Pos))
    (cur prev : Pos) (prob : List α) : List α :=
  let exps := exponential_list e alpha animals cur prev
  normalize (mk_new_probabilities prob exps exps.sum animals.length) (1/50)

/-- The once-renormalized posterior before clamping; `infer_intention`
coincides with it whenever no entry hits the clamp window boundary
(`normalize_eq_of_bounds`). -/
def pre_posterior (e : α → α) (alpha : α) (animals : List (String × Pos))
    (cur prev : Pos) (prob : List α) : List α :=
  let exps := exponential_list e alpha animals cur prev
  let np := mk_new_probabilities prob exps exps.sum animals.length
  np.map (fun v => v / np.sum)

/-- Division that fails (returns `none`) on a zero denominator, used to state
that the reward computation never divides by zero. -/
def checked_div (a b : α) : Option α :=
  if b = 0 then none else some (a / b)

/-- The rewards computation with every division checked: `none` would signal
a `ZeroDivisionError` in the Python source. -/
def reward_list_checked (animals : List (String × Pos)) (cur prev : Pos) :
    Option (List α) :=
  (List.range animals.length).mapM (fun i =>
    if (distances_to animals cur).getD i 0 ≠ 0 then
      (checked_div ((total_distance animals cur : ℤ) : α)
          (((distances_to animals cur).getD i 0 : ℤ) : α)).map
        (fun f => -(((movement_deltas animals cur prev).getD i 0 : ℤ) : α) * f)
    else
      some (-(((movement_deltas animals cur prev).getD i 0 : ℤ) : α) *
        ((total_distance animals cur : ℤ) : α)))

/-! Helper lemmas for the pipeline. -/

theorem getD_range_map {β : Type} (f : ℕ → β) (n i : ℕ) (d : β) (h : i < n) :
    ((List.range n).map f).getD i d = f i := by
  have hl : i < ((List.range n).map f).length := by
    simp [h]
  rw [List.getD_eq_getElem _ _ hl]
  simp

theorem foldl_append_singleton {β γ : Type} (f : γ → β) (l : List γ) (acc : List β) :
    l.foldl (fun a i => a ++ [f i]) acc = acc ++ l.map f := by
  induction l generalizing acc with
  | nil => simp
  | cons x xs ih => simp [List.foldl_cons, ih]

theorem mk_new_probabilities_of_denom_zero (prob exps : List α) (K : ℕ) :
    mk_new_probabilities prob exps 0 K = [] := by
  unfold mk_new_probabilities
  have : ∀ (l : List ℕ) (acc : List α),
      l.foldl (fun new_probs i =>
        if (0 : α) = 0 then new_probs
        else new_probs ++ [prob.getD i 0 * (exps.getD i 0 / 0)]) acc = acc := by
    intro l
    induction l with
    | nil => intro acc; rfl
    | cons x xs ih => intro acc; rw [List.foldl_cons, if_pos rfl]; exact ih acc
  exact this (List.range K) []

theorem mk_new_probabilities_of_denom_ne (prob exps : List α) (denom : α)
    (K : ℕ) (h : denom ≠ 0) :
    mk_new_probabilities prob exps denom K
      = (List.range K).map (fun i => prob.getD i 0 * (exps.getD i 0 / denom)) := by
  unfold mk_new_probabilities
  have hfun : (fun (new_probs : List α) (i : ℕ) =>
      if denom = 0 then new_probs
      else new_probs ++ [prob.getD i 0 * (exps.getD i 0 / denom)])
      = fun new_probs i => new_probs ++ [prob.getD i 0 * (exps.getD i 0 / denom)] := by
    funext a i
    rw [if_neg h]
  rw [hfun, foldl_append_singleton]
  simp

theorem clampEntry_id (epsilon x : α) (h1 : epsilon ≤ x) (h2 : x ≤ 1 - epsilon) :
    clampEntry epsilon x = x := by
  unfold clampEntry
  rw [min_eq_left h2, max_eq_left h1]

/-- When the once-renormalized vector stays inside the clamp window, the
clamp and the second renormalization are the identity. -/
theorem normalize_eq_of_bounds (l : List α) (hne : l.sum ≠ 0)
    (hb : ∀ x ∈ l.map (fun v => v / l.sum), 1/50 ≤ x ∧ x ≤ 1 - 1/50) :
    normalize l (1/50) = l.map (fun v => v / l.sum) := by
  unfold normalize
  rw [if_neg hne]
  have hcl : (l.map (fun v => v / l.sum)).map (fun v => clampEntry (1/50) v)
      = l.map (fun v => v / l.sum) := by
    rw [List.map_congr_left (fun x hx => clampEntry_id (1/50) x (hb x hx).1 (hb x hx).2)]
    exact List.map_id _
  simp only [hcl]
  rw [sum_map_div, div_self hne]
  simp

theorem mapM_eq_map {β γ : Type} (g : β → Option γ) (f : β → γ) (l : List β)
    (h : ∀ x ∈ l, g x = some (f x)) : l.mapM g = some (l.map f) := by
  induction l with
  | nil => rfl
  | cons x xs ih =>
    rw [List.mapM_cons, h x (List.mem_cons_self x xs),
      ih (fun y hy => h y (List.mem_cons_of_mem x hy))]
    rfl

/-- C9, proved below as `infer_intention_short_vector`: whenever the softmax
likelihood denominator evaluates to zero — which the Python source reaches
when every `math.exp` call underflows to `0.0` (inputs below about `-745`) —
the `new_probabilities` loop appends no entry at all, so the vector handed to
`normalize` is empty rather than length `K`, and `normalize` returns it
unrepaired (in Python, `normalize([])` would in fact raise
`ZeroDivisionError` on `1/len`). -/
theorem infer_intention_short_vector (e : ℚ → ℚ) (alpha : ℚ)
    (animals : List (String × Pos)) (cur prev : Pos) (prob : List ℚ)
    (hK : 0 < animals.length)
    (h : (exponential_list e alpha animals cur prev).sum = 0) :
    mk_new_probabilities prob (exponential_list e alpha animals cur prev)
      (exponential_list e alpha animals cur prev).sum animals.length = [] ∧
    infer_intention e alpha animals cur prev prob = [] ∧
    (infer_intention e alpha animals cur prev prob).length < animals.length := by
  have h1 : mk_new_probabilities prob (exponential_list e alpha animals cur prev)
      (exponential_list e alpha animals cur prev).sum animals.length = [] := by
    rw [h]
    exact mk_new_probabilities_of_denom_zero _ _ _
  have h2 : infer_intention e alpha animals cur prev prob = [] := by
    show normalize (mk_new_probabilities prob (exponential_list e alpha animals cur prev)
      (exponential_list e alpha animals cur prev).sum animals.length) (1/50) = []
    rw [h1]
    simp [normalize]
  exact ⟨h1, h2, by rw [h2]; simpa using hK⟩

/-- C9, witness: with an exponential function that (like `math.exp` under
deep underflow) returns `0`, a two-hypothesis update builds the empty
probability vector. -/
theorem infer_intention_short_vector_witness :
    (exponential_list (fun _ : ℚ => 0) (1/20)
      [("stag", ((0:ℤ),(5:ℤ))), ("hare", ((5:ℤ),(0:ℤ)))] (0,1) (0,0)).sum = 0 ∧
    infer_intention (fun _ : ℚ => 0) (1/20)
      [("stag", ((0:ℤ),(5:ℤ))), ("hare", ((5:ℤ),(0:ℤ)))] (0,1) (0,0) [1/2, 1/2] = [] := by
  have hsum : (exponential_list (fun _ : ℚ => 0) (1/20)
      [("stag", ((0:ℤ),(5:ℤ))), ("hare", ((5:ℤ),(0:ℤ)))] (0,1) (0,0)).sum = 0 := by
    simp [exponential_list]
  exact ⟨hsum, (infer_intention_short_vector (fun _ => 0) (1/20) _ (0,1) (0,0) [1/2, 1/2]
    (by norm_num) hsum).2.1⟩

/-- C4, proved below as `reward_division_safe`: the reward computation's only
division is guarded by the `current_distance[i] != 0` test, so with checked
division it never fails, and for each hypothesis the weight factor is
`totalDistance / dist(newPos, target_i)` when that distance is non-zero and
`totalDistance` itself when it is zero. -/
theorem reward_division_safe (animals : List (String × Pos)) (cur prev : Pos) :
    (reward_list_checked animals cur prev : Option (List ℚ))
      = some (reward_list animals cur prev) ∧
    ∀ i, (hi : i < animals.length) →
      ((reward_list animals cur prev : List ℚ)).getD i 0 =
        -((manhattan_distance cur (animals.get ⟨i, hi⟩).2
            - manhattan_distance prev (animals.get ⟨i, hi⟩).2 : ℤ) : ℚ) *
          (if manhattan_distance cur (animals.get ⟨i, hi⟩).2 = 0
           then ((total_distance animals cur : ℤ) : ℚ)
           else ((total_distance animals cur : ℤ) : ℚ)
              / ((manhattan_distance cur (animals.get ⟨i, hi⟩).2 : ℤ) : ℚ)) := by
  constructor
  · unfold reward_list_checked reward_list
    apply mapM_eq_map
    intro i _
    by_cases hd : (distances_to animals cur).getD i 0 ≠ 0
    · rw [if_pos hd, if_pos hd]
      have hcast : (((distances_to animals cur).getD i 0 : ℤ) : ℚ) ≠ 0 := by
        exact_mod_cast hd
      rw [checked_div, if_neg hcast]
      rfl
    · rw [if_neg hd, if_neg hd]
  · intro i hi
    have hd : (distances_to animals cur).getD i 0
        = manhattan_distance cur (animals.get ⟨i, hi⟩).2 := by
      have hl : i < (distances_to animals cur).length := by
        simpa [distances_to] using hi
      rw [List.getD_eq_getElem _ _ hl]
      simp [distances_to, List.get_eq_getElem]
    have hdel : (movement_deltas animals cur prev).getD i 0
        = manhattan_distance cur (animals.get ⟨i, hi⟩).2
          - manhattan_distance prev (animals.get ⟨i, hi⟩).2 := by
      have hl : i < (movement_deltas animals cur prev).length := by
        simpa [movement_deltas, distances_to] using hi
      rw [List.getD_eq_getElem _ _ hl]
      simp [movement_deltas, distances_to, List.get_eq_getElem]
    unfold reward_list
    rw [getD_range_map _ _ _ _ hi, hd, hdel]
    rcases eq_or_ne (manhattan_distance cur (animals.get ⟨i, hi⟩).2) 0 with hz | hz
    · rw [if_neg (by rw [hz]; simp), if_pos hz]
    · rw [if_pos hz, if_neg hz]

/-- C4, witness: in the two-hypothesis scenario with targets `(0,5)` and
`(5,0)` and the agent at `(0,1)`, the first reward is `-(4 - 5) * (10 / 4)`. -/
theorem reward_division_safe_witness :
    ((reward_list [("stag", ((0:ℤ),(5:ℤ))), ("hare", ((5:ℤ),(0:ℤ)))]
        ((0:ℤ),(1:ℤ)) ((0:ℤ),(0:ℤ)) : List ℚ)).getD 0 0 = 5/2 := by
  have h := (reward_division_safe [("stag", ((0:ℤ),(5:ℤ))), ("hare", ((5:ℤ),(0:ℤ)))]
    ((0:ℤ),(1:ℤ)) ((0:ℤ),(0:ℤ))).2 0 (by norm_num)
  rw [h]
  norm_num [manhattan_distance, total_distance, distances_to]

/-! The per-tick probability update over all tracked players
(`GeneralizedProbabilisticBot.update_probabilities`; the observed-player loop
of `PartialObsGeneralizedProbabilisticBot.update_probabilities2` has the same
previous-position logic).  The two Python dicts `previous_player_positions`
and `player_probabilities` are modelled as functions from player ids. -/

/-- The mutable per-bot tracking state: recorded previous positions and the
per-player probability vectors. -/
structure BotState (α : Type) where
  prev : ℕ → Option Pos
  probs : ℕ → List α

/-- One iteration of the `update_probabilities` player loop: skip the id-1
player; on first sighting only record the position; on no movement do
nothing; otherwise run the inference update and record the new position. -/
def step_player (e : α → α) (alpha : α) (animals : List (String × Pos))
    (st : BotState α) (p : ℕ × Pos) : BotState α :=
  if p.1 = 1 then st
  else
    match st.prev p.1 with
    | none =>
        { st with prev := fun j => if j = p.1 then some p.2 else st.prev j }
    | some p0 =>
        if p0 = p.2 then st
        else
          { prev := fun j => if j = p.1 then some p.2 else st.prev j,
            probs := fun j =>
              if j = p.1 then infer_intention e alpha animals p.2 p0 (st.probs p.1)
              else st.probs j }

/-- `update_probabilities`: fold the player loop over the snapshot's
`(player_id, position)` items. -/
def update_probabilities (e : α → α) (alpha : α) (animals : List (String × Pos))
    (players : List (ℕ × Pos)) (st : BotState α) : BotState α :=
  players.foldl (step_player e alpha animals) st

theorem step_player_eq_one (e : α → α) (alpha : α)
    (animals : List (String × Pos)) (s : BotState α) (p : ℕ × Pos)
    (h1 : p.1 = 1) : step_player e alpha animals s p = s := by
  unfold step_player
  rw [if_pos h1]

theorem step_player_eq_none (e : α → α) (alpha : α)
    (animals : List (String × Pos)) (s : BotState α) (p : ℕ × Pos)
    (h1 : p.1 ≠ 1) (hq : s.prev p.1 = none) :
    step_player e alpha animals s p
      = { s with prev := fun j => if j = p.1 then some p.2 else s.prev j } := by
  unfold step_player
  rw [if_neg h1, hq]

theorem step_player_eq_some (e : α → α) (alpha : α)
    (animals : List (String × Pos)) (s : BotState α) (p : ℕ × Pos) (p0 : Pos)
    (h1 : p.1 ≠ 1) (hq : s.prev p.1 = some p0) :
    step_player e alpha animals s p
      = if p0 = p.2 then s
        else
          { prev := fun j => if j = p.1 then some p.2 else s.prev j,
            probs := fun j =>
              if j = p.1 then infer_intention e alpha animals p.2 p0 (s.probs p.1)
              else s.probs j } := by
  unfold step_player
  rw [if_neg h1, hq]

theorem step_player_probs_other (e : α → α) (alpha : α)
    (animals : List (String × Pos)) (st : BotState α) (p : ℕ × Pos) (i : ℕ)
    (h : p.1 ≠ i) : (step_player e alpha animals st p).probs i = st.probs i := by
  have hne : ¬ (i = p.1) := fun hc => h hc.symm
  by_cases h1 : p.1 = 1
  · rw [step_player_eq_one e alpha animals st p h1]
  · cases hp : st.prev p.1 with
    | none => rw [step_player_eq_none e alpha animals st p h1 hp]
    | some p0 =>
      rw [step_player_eq_some e alpha animals st p p0 h1 hp]
      by_cases heq : p0 = p.2
      · rw [if_pos heq]
      · rw [if_neg heq]
        simp [hne]

theorem step_player_prev_other (e : α → α) (alpha : α)
    (animals : List (String × Pos)) (st : BotState α) (p : ℕ × Pos) (i : ℕ)
    (h : p.1 ≠ i) : (step_player e alpha animals st p).prev i = st.prev i := by
  have hne : ¬ (i = p.1) := fun hc => h hc.symm
  by_cases h1 : p.1 = 1
  · rw [step_player_eq_one e alpha animals st p h1]
  · cases hp : st.prev p.1 with
    | none =>
      rw [step_player_eq_none e alpha animals st p h1 hp]
      simp [hne]
    | some p0 =>
      rw [step_player_eq_some e alpha animals st p p0 h1 hp]
      by_cases heq : p0 = p.2
      · rw [if_pos heq]
      · rw [if_neg heq]
        simp [hne]

theorem step_player_stationary (e : α → α) (alpha : α)
    (animals : List (String × Pos)) (st : BotState α) (p : ℕ × Pos) (i : ℕ)
    (hpi : p.1 = i) (hinv : st.prev i = none ∨ st.prev i = some p.2) :
    (step_player e alpha animals st p).probs i = st.probs i ∧
      ((step_player e alpha animals st p).prev i = none ∨
        (step_player e alpha animals st p).prev i = some p.2) := by
  subst hpi
  by_cases h1 : p.1 = 1
  · rw [step_player_eq_one e alpha animals st p h1]
    exact ⟨rfl, hinv⟩
  · rcases hinv with hnone | hsome
    · rw [step_player_eq_none e alpha animals st p h1 hnone]
      simp
    · rw [step_player_eq_some e alpha animals st p p.2 h1 hsome, if_pos rfl]
      exact ⟨rfl, Or.inr hsome⟩

theorem step_player_prev_ne_none (e : α → α) (alpha : α)
    (animals : List (String × Pos)) (s : BotState α) (p : ℕ × Pos) (i : ℕ)
    (h : s.prev i ≠ none) : (step_player e alpha animals s p).prev i ≠ none := by
  by_cases hqi : p.1 = i
  · subst hqi
    by_cases h1 : p.1 = 1
    · rw [step_player_eq_one e alpha animals s p h1]; exact h
    · cases hq : s.prev p.1 with
      | none => exact absurd hq h
      | some p0 =>
        rw [step_player_eq_some e alpha animals s p p0 h1 hq]
        by_cases heq : p0 = p.2
        · rw [if_pos heq]; exact h
        · rw [if_neg heq]; simp
  · rw [step_player_prev_other e alpha animals s p i hqi]
    exact h

theorem update_probabilities_prev_ne_none (e : α → α) (alpha : α)
    (animals : List (String × Pos)) (ps : List (ℕ × Pos)) (i : ℕ) :
    ∀ s : BotState α, s.prev i ≠ none →
      (update_probabilities e alpha animals ps s).prev i ≠ none := by
  induction ps with
  | nil => intro s h; exact h
  | cons q qs ih =>
    intro s h
    exact ih (step_player e alpha animals s q)
      (step_player_prev_ne_none e alpha animals s q i h)

theorem step_player_records (e : α → α) (alpha : α)
    (animals : List (String × Pos)) (s : BotState α) (p : ℕ × Pos)
    (h1 : p.1 ≠ 1) : (step_player e alpha animals s p).prev p.1 ≠ none := by
  cases hq : s.prev p.1 with
  | none =>
    rw [step_player_eq_none e alpha animals s p h1 hq]
    simp
  | some p0 =>
    rw [step_player_eq_some e alpha animals s p p0 h1 hq]
    by_cases heq : p0 = p.2
    · rw [if_pos heq, hq]; simp
    · rw [if_neg heq]; simp

theorem update_probabilities_records (e : α → α) (alpha : α)
    (animals : List (String × Pos)) (ps : List (ℕ × Pos)) (i : ℕ) (pos : Pos) :
    ∀ s : BotState α, i ≠ 1 → (i, pos) ∈ ps →
      (update_probabilities e alpha animals ps s).prev i ≠ none := by
  induction ps with
  | nil => intro s _ hmem; exact absurd hmem (List.not_mem_nil _)
  | cons p qs ih =>
    intro s hne hmem
    rcases List.mem_cons.mp hmem with hp | hp
    · have hpi : p.1 = i := by rw [← hp]
      have hrec := step_player_records e alpha animals s p (by rw [hpi]; exact hne)
      rw [hpi] at hrec
      exact update_probabilities_prev_ne_none e alpha animals qs i
        (step_player e alpha animals s p) hrec
    · exact ih (step_player e alpha animals s p) hne hp

/-- C3, proved below as `update_probabilities_noop`: across the full player
loop, a player whose every occurrence carries the already-recorded position —
or that is being sighted for the first time — keeps its probability vector
unchanged, and a first-sighted (non-id-1) player merely gets its position
recorded as the previous position. -/
theorem update_probabilities_noop (e : α → α) (alpha : α)
    (animals : List (String × Pos)) (players : List (ℕ × Pos))
    (st : BotState α) (i : ℕ) (pos : Pos)
    (hocc : ∀ p ∈ players, p.1 = i → p.2 = pos) :
    (st.prev i = some pos →
      (update_probabilities e alpha animals players st).probs i = st.probs i) ∧
    (st.prev i = none →
      (update_probabilities e alpha animals players st).probs i = st.probs i ∧
      (i ≠ 1 → (i, pos) ∈ players →
        (update_probabilities e alpha animals players st).prev i = some pos)) := by
  have main : ∀ (ps : List (ℕ × Pos)) (s : BotState α),
      (∀ p ∈ ps, p.1 = i → p.2 = pos) →
      (s.prev i = none ∨ s.prev i = some pos) →
      (update_probabilities e alpha animals ps s).probs i = s.probs i ∧
        ((update_probabilities e alpha animals ps s).prev i = none ∨
          (update_probabilities e alpha animals ps s).prev i = some pos) := by
    intro ps
    induction ps with
    | nil => intro s _ hinv; exact ⟨rfl, hinv⟩
    | cons p ps ih =>
      intro s hocc2 hinv
      have hocc3 : ∀ q ∈ ps, q.1 = i → q.2 = pos := fun q hq =>
        hocc2 q (List.mem_cons_of_mem p hq)
      by_cases hpi : p.1 = i
      · have hpos : p.2 = pos := hocc2 p (List.mem_cons_self p ps) hpi
        have hinv2 : s.prev i = none ∨ s.prev i = some p.2 := by
          rw [hpos]; exact hinv
        obtain ⟨hpr, hin⟩ := step_player_stationary e alpha animals s p i hpi hinv2
        rw [hpos] at hin
        have := ih (step_player e alpha animals s p) hocc3 hin
        exact ⟨this.1.trans hpr, this.2⟩
      · have hpr := step_player_probs_other e alpha animals s p i hpi
        have hpv := step_player_prev_other e alpha animals s p i hpi
        have hinv2 : (step_player e alpha animals s p).prev i = none ∨
            (step_player e alpha animals s p).prev i = some pos := by
          rw [hpv]; exact hinv
        have := ih (step_player e alpha animals s p) hocc3 hinv2
        exact ⟨this.1.trans hpr, this.2⟩
  constructor
  · intro hsome
    exact (main players st hocc (Or.inr hsome)).1
  · intro hnone
    refine ⟨(main players st hocc (Or.inl hnone)).1, fun hne hmem => ?_⟩
    have h2 := (main players st hocc (Or.inl hnone)).2
    have h3 := update_probabilities_records e alpha animals players i pos st hne hmem
    rcases h2 with h2 | h2
    · exact absurd h2 h3
    · exact h2

/-- C3, witness: a single observed player with an unchanged position keeps its
probability vector, and a first-sighted player gets its position recorded. -/
theorem update_probabilities_noop_witness :
    (update_probabilities (id : ℚ → ℚ) (1/20) [("stag", ((0:ℤ),(5:ℤ)))]
      [(2, ((3:ℤ),(4:ℤ)))]
      ⟨fun _ => some ((3:ℤ),(4:ℤ)), fun _ => [1/2, 1/2]⟩).probs 2 = [1/2, 1/2] ∧
    (update_probabilities (id : ℚ → ℚ) (1/20) [("stag", ((0:ℤ),(5:ℤ)))]
      [(2, ((3:ℤ),(4:ℤ)))]
      ⟨fun _ => none, fun _ => [1/2, 1/2]⟩).prev 2 = some ((3:ℤ),(4:ℤ)) := by
  constructor
  · exact (update_probabilities_noop id (1/20) [("stag", ((0:ℤ),(5:ℤ)))]
      [(2, ((3:ℤ),(4:ℤ)))] ⟨fun _ => some ((3:ℤ),(4:ℤ)), fun _ => [1/2, 1/2]⟩ 2
      ((3:ℤ),(4:ℤ)) (by intro p hp _; fin_cases hp; rfl)).1 rfl
  · exact ((update_probabilities_noop id (1/20) [("stag", ((0:ℤ),(5:ℤ)))]
      [(2, ((3:ℤ),(4:ℤ)))] ⟨fun _ => none, fun _ => [1/2, 1/2]⟩ 2
      ((3:ℤ),(4:ℤ)) (by intro p hp _; fin_cases hp; rfl)).2 rfl).2
      (by norm_num) (by simp)

/-! The belief tracker
(`PartialObsGeneralizedProbabilisticBot.observation_update` and friends).
A `BeliefGrid` over an `n_row × n_col` board is a function from (row, col)
indices; the detection-probability model
(`get_gaussian_detect_prob`, a Gaussian in the manhattan distance) enters
`observation_update` only through its values, so it is kept as an explicit
function parameter `pdet`. -/

/-- Sum of a grid's entries over the `n_row × n_col` board
(`updated_belief.sum()`). -/
def gridSum (n_row n_col : ℕ) (g : ℕ → ℕ → α) : α :=
  ∑ r ∈ Finset.range n_row, ∑ c ∈ Finset.range n_col, g r c

/-- `get_gaussian_detect_prob`: `exp(-d^2 / (2 sigma^2))`. -/
noncomputable def get_gaussian_detect_prob (d sigma : ℝ) : ℝ :=
  Real.exp (-(d ^ 2) / (2 * sigma ^ 2))

/-- The pointwise multiplication of the predicted grid by
`1 - p_detect(distance(cell, robot))` in the undetected branch of
`observation_update`. -/
def belief_mult (pdet : ℤ → α) (robot : Pos) (predicted : ℕ → ℕ → α) :
    ℕ → ℕ → α :=
  fun r c => predicted r c * (1 - pdet (manhattan_distance ((r : ℤ), (c : ℤ)) robot))

/-- `PartialObsGeneralizedProbabilisticBot.observation_update`: collapse to a
one-hot grid on a detection; otherwise multiply by the negative-evidence
factor and renormalize, keeping the predicted grid unchanged when the total
mass is at or below `1e-12`. -/
def observation_update (pdet : ℤ → α) (n_row n_col : ℕ) (robot : Pos)
    (predicted : ℕ → ℕ → α) (observed : Option (ℕ × ℕ)) : ℕ → ℕ → α :=
  match observed with
  | some obs => fun r c => if r = obs.1 ∧ c = obs.2 then 1 else 0
  | none =>
    let updated := belief_mult pdet robot predicted
    let total := gridSum n_row n_col updated
    if total > 1 / 1000000000000 then fun r c => updated r c / total
    else predicted

/-- C5, proved below as `observation_update_spec`: in the undetected
branch, when the remaining mass is at or below `1e-12` the returned grid is
the predicted grid unchanged; otherwise it is the multiplied grid
renormalized, and it sums to exactly 1. -/
theorem observation_update_spec (pdet : ℤ → α) (n_row n_col : ℕ) (robot : Pos)
    (predicted : ℕ → ℕ → α) :
    (gridSum n_row n_col (belief_mult pdet robot predicted) ≤ 1 / 1000000000000 →
      observation_update pdet n_row n_col robot predicted none = predicted) ∧
    (1 / 1000000000000 < gridSum n_row n_col (belief_mult pdet robot predicted) →
      observation_update pdet n_row n_col robot predicted none
        = (fun r c => belief_mult pdet robot predicted r c
            / gridSum n_row n_col (belief_mult pdet robot predicted)) ∧
      gridSum n_row n_col
        (observation_update pdet n_row n_col robot predicted none) = 1) := by
  constructor
  · intro hle
    unfold observation_update
    rw [if_neg (not_lt.mpr hle)]
  · intro hgt
    have heq : observation_update pdet n_row n_col robot predicted none
        = fun r c => belief_mult pdet robot predicted r c
            / gridSum n_row n_col (belief_mult pdet robot predicted) := by
      unfold observation_update
      rw [if_pos hgt]
    refine ⟨heq, ?_⟩
    rw [heq]
    have htot : gridSum n_row n_col (belief_mult pdet robot predicted) ≠ 0 := by
      intro hc
      rw [hc] at hgt
      have h0 : (0 : α) < 1 / 1000000000000 := by norm_num
      linarith
    unfold gridSum at htot ⊢
    simp_rw [← Finset.sum_div]
    exact div_self htot

/-- C5, witness: on a 1×1 board with a flat detection probability 1/2, the
remaining mass 1/2 exceeds `1e-12` and the renormalized grid sums to 1. -/
theorem observation_update_spec_witness :
    (1 : ℚ) / 1000000000000
        < gridSum 1 1 (belief_mult (fun _ => 1/2) ((0:ℤ),(0:ℤ)) (fun _ _ => 1)) ∧
    gridSum 1 1 (observation_update (fun _ => (1:ℚ)/2) 1 1 ((0:ℤ),(0:ℤ))
      (fun _ _ => 1) none) = 1 := by
  have hgt : (1 : ℚ) / 1000000000000
      < gridSum 1 1 (belief_mult (fun _ => 1/2) ((0:ℤ),(0:ℤ)) (fun _ _ => 1)) := by
    norm_num [gridSum, belief_mult]
  exact ⟨hgt, ((observation_update_spec (fun _ => (1:ℚ)/2) 1 1 ((0:ℤ),(0:ℤ))
    (fun _ _ => 1)).2 hgt).2⟩

/-! The decision policy
(`PartialObsGeneralizedProbabilisticBot.decide_action` and the tail of
`get_next_key`).  Selenium arrow keys become the `GUKey` type; `None`
(no key pressed, i.e. WAIT) is `Option.none`.  `random.choice` in
`move_towards` is an explicit selector parameter. -/

/-- The discrete actions a bot can emit. -/
inductive GUKey where
  | up
  | down
  | left
  | right
  | space
  deriving DecidableEq

/-- Python's `max` over a non-empty list (0 on the empty list, where Python
would raise `ValueError`). -/
def listMax : List ℚ → ℚ
  | [] => 0
  | x :: xs => xs.foldl max x

/-- Python's `min` over a non-empty list (0 on the empty list). -/
def listMin : List ℚ → ℚ
  | [] => 0
  | x :: xs => xs.foldl min x

/-- Python's `min(l, key=f)`: the first element attaining the minimal key
(`none` on the empty list, where Python would raise `ValueError`). -/
def pyMinBy (f : ℕ → ℤ) : List ℕ → Option ℕ
  | [] => none
  | x :: xs => some (xs.foldl (fun b a => if f a < f b then a else b) x)

/-- The `best_targets` dict of `decide_action`, in insertion order: for each
non-id-1 player whose probabilities are not all equal, the animal type and
index of its first maximal probability. -/
def best_targets (animals : List (String × Pos)) (probs : List (ℕ × List ℚ)) :
    List (String × ℕ) :=
  probs.filterMap (fun p =>
    if p.1 = 1 then none
    else if listMax p.2 = listMin p.2 then none
    else
      let best_index := p.2.indexOf (listMax p.2)
      some ((animals.map Prod.fst).getD best_index "", best_index))

/-- `PartialObsGeneralizedProbabilisticBot.decide_action`: `none` models the
Python `return None` (WAIT). `team_stag`/`team_hare` are the bot's
`team_goal` entries. -/
def decide_action (animals : List (String × Pos)) (team_stag team_hare : ℚ)
    (probs : List (ℕ × List ℚ)) (robot_pos : Pos) : Option ℕ :=
  let animal_types := animals.map Prod.fst
  if probs.all (fun p => p.1 == 1 || listMax p.2 == listMin p.2) then none
  else
    let bt := best_targets animals probs
    let stag_targets := bt.filterMap (fun t => if t.1 = "stag" then some t.2 else none)
    let hare_targets := bt.filterMap (fun t => if t.1 = "hare" then some t.2 else none)
    let dist := fun idx =>
      manhattan_distance robot_pos ((animals.getD idx ("", (0, 0))).2)
    if (team_stag > team_hare ∨ |team_stag - team_hare| < 1/10)
        ∧ stag_targets ≠ [] then
      pyMinBy dist stag_targets
    else
      let available_hares := (List.range animal_types.length).filter
        (fun idx => animal_types.getD idx "" == "hare" && !hare_targets.contains idx)
      if available_hares ≠ [] then pyMinBy dist available_hares
      else pyMinBy dist hare_targets

/-- `PartialObsGeneralizedProbabilisticBot.move_towards`: the single-step
options that reduce a coordinate gap, with `choice` standing for
`random.choice`; `SPACE` when no option exists. -/
def move_towards (choice : List GUKey → GUKey) (current target : Pos) : GUKey :=
  let options :=
    (if target.1 > current.1 then [GUKey.down] else []) ++
    (if target.1 < current.1 then [GUKey.up] else []) ++
    (if target.2 > current.2 then [GUKey.right] else []) ++
    (if target.2 < current.2 then [GUKey.left] else [])
  if options = [] then GUKey.space else choice options

/-- The decision tail of
`PartialObsGeneralizedProbabilisticBot.get_next_key` (after the belief and
probability updates): return `None` when no target was decided, otherwise
move towards the chosen animal. -/
def get_next_key_decision (choice : List GUKey → GUKey)
    (animals : List (String × Pos)) (team_stag team_hare : ℚ)
    (probs : List (ℕ × List ℚ)) (robot_pos : Pos) : Option GUKey :=
  match decide_action animals team_stag team_hare probs robot_pos with
  | none => none
  | some best => some (move_towards choice robot_pos (animals.getD best ("", (0, 0))).2)

/-- C7, proved below as `decide_action_all_equal_wait`: when every tracked
player's probability vector is numerically flat (max equals min), the
decision step selects no target and the bot emits no movement key. -/
theorem decide_action_all_equal_wait (choice : List GUKey → GUKey)
    (animals : List (String × Pos)) (team_stag team_hare : ℚ)
    (probs : List (ℕ × List ℚ)) (robot_pos : Pos)
    (h : ∀ p ∈ probs, p.1 = 1 ∨ listMax p.2 = listMin p.2) :
    decide_action animals team_stag team_hare probs robot_pos = none ∧
    get_next_key_decision choice animals team_stag team_hare probs robot_pos
      = none := by
  have hall : probs.all (fun p => p.1 == 1 || listMax p.2 == listMin p.2) = true := by
    rw [List.all_eq_true]
    intro p hp
    rcases h p hp with h1 | h1
    · simp [h1]
    · simp [h1]
  have hda : decide_action animals team_stag team_hare probs robot_pos = none := by
    unfold decide_action
    rw [if_pos hall]
  refine ⟨hda, ?_⟩
  unfold get_next_key_decision
  rw [hda]

/-- C7, witness: two tracked players with flat vectors produce a WAIT. -/
theorem decide_action_all_equal_wait_witness :
    decide_action [("stag", ((0:ℤ),(5:ℤ))), ("hare", ((5:ℤ),(0:ℤ)))] (1/2) (1/2)
      [(2, [1/2, 1/2]), (3, [1/3, 1/3, 1/3])] ((0:ℤ),(0:ℤ)) = none ∧
    get_next_key_decision (fun l => l.headD GUKey.space)
      [("stag", ((0:ℤ),(5:ℤ))), ("hare", ((5:ℤ),(0:ℤ)))] (1/2) (1/2)
      [(2, [1/2, 1/2]), (3, [1/3, 1/3, 1/3])] ((0:ℤ),(0:ℤ)) = none := by
  have h := decide_action_all_equal_wait (fun l => l.headD GUKey.space)
    [("stag", ((0:ℤ),(5:ℤ))), ("hare", ((5:ℤ),(0:ℤ)))] (1/2) (1/2)
    [(2, [1/2, 1/2]), (3, [1/3, 1/3, 1/3])] ((0:ℤ),(0:ℤ))
    (by
      intro p hp
      fin_cases hp
      · right; norm_num [listMax, listMin]
      · right; norm_num [listMax, listMin])
  exact h

/-! The distance oracle (`BaseGridUniverseBot.distance`): a maze/graph pair
is built lazily on the first query (the `try/except AttributeError` around
`self._maze`/`self._graph`) and reused for every later query; the cache is
never invalidated.  The builders and the A* search live in the external
`maze_utils` module, outside this repository's sources. -/

/-- Modelled from the spec: the maze produced by `positions_to_maze` (external
`maze_utils` module, §4.1) packages the wall layout and board dimensions. -/
structure Maze where
  rows : ℕ
  cols : ℕ
  walls : List Pos
  deriving DecidableEq

/-- Modelled from the spec: `positions_to_maze` (external `maze_utils`
module) builds the maze from the wall cells and the board dimensions. -/
def positions_to_maze (walls : List Pos) (rows cols : ℕ) : Maze :=
  ⟨rows, cols, walls⟩

/-- Modelled from the spec: `maze_to_graph` (external `maze_utils` module,
§4.1) maps each free cell to its in-bounds non-wall 4-neighbors. -/
def maze_to_graph (m : Maze) : Pos → List Pos :=
  fun p =>
    if p ∈ m.walls then []
    else
      ([(p.1 - 1, p.2), (p.1 + 1, p.2), (p.1, p.2 - 1), (p.1, p.2 + 1)]).filter
        (fun q => decide (0 ≤ q.1 ∧ q.1 < (m.rows : ℤ) ∧ 0 ≤ q.2 ∧
          q.2 < (m.cols : ℤ) ∧ q ∉ m.walls))

/-- `BaseGridUniverseBot.translate_directions`: NSEW letters to arrow keys
via `lookup.get`, which yields `None` on an unknown letter. -/
def translate_directions (directions : List Char) : List (Option GUKey) :=
  directions.map (fun c =>
    if c = 'N' then some GUKey.up
    else if c = 'S' then some GUKey.down
    else if c = 'E' then some GUKey.right
    else if c = 'W' then some GUKey.left
    else none)

/-- `BaseGridUniverseBot.distance` with the cache made explicit: returns the
(distance, directions) result, the maze/graph pair now cached, and whether
this call built the pair.  The A* search `find_path_astar` (external
`maze_utils` module) is the parameter `f`. -/
def distance_call
    (f : Maze → (Pos → List Pos) → Pos → Pos → Option (ℕ × List Char))
    (walls : List Pos) (rows cols : ℕ)
    (cache : Option (Maze × (Pos → List Pos))) (origin endpoint : Pos) :
    (Option ℕ × List (Option GUKey)) × (Maze × (Pos → List Pos)) × Bool :=
  let mg := match cache with
    | some mg => mg
    | none =>
      let m := positions_to_maze walls rows cols
      (m, maze_to_graph m)
  match f mg.1 mg.2 origin endpoint with
  | some r => ((some r.1, translate_directions r.2), mg, cache.isNone)
  | none => ((none, []), mg, cache.isNone)

/-- A whole episode of distance queries (each with that tick's wall set,
dimensions, origin and endpoint), threading the cache and counting builds. -/
def run_queries
    (f : Maze → (Pos → List Pos) → Pos → Pos → Option (ℕ × List Char)) :
    List (List Pos × ℕ × ℕ × Pos × Pos) →
    Option (Maze × (Pos → List Pos)) → ℕ →
    Option (Maze × (Pos → List Pos)) × ℕ
  | [], cache, builds => (cache, builds)
  | q :: qs, cache, builds =>
    let r := distance_call f q.1 q.2.1 q.2.2.1 cache q.2.2.2.1 q.2.2.2.2
    run_queries f qs (some r.2.1) (builds + (if r.2.2 then 1 else 0))

theorem distance_call_cached
    (f : Maze → (Pos → List Pos) → Pos → Pos → Option (ℕ × List Char))
    (walls : List Pos) (rows cols : ℕ) (mg : Maze × (Pos → List Pos))
    (origin endpoint : Pos) :
    (distance_call f walls rows cols (some mg) origin endpoint).2 = (mg, false) := by
  unfold distance_call
  cases hf : f mg.1 mg.2 origin endpoint with
  | some r => simp [hf]
  | none => simp [hf]

theorem distance_call_builds
    (f : Maze → (Pos → List Pos) → Pos → Pos → Option (ℕ × List Char))
    (walls : List Pos) (rows cols : ℕ) (origin endpoint : Pos) :
    (distance_call f walls rows cols none origin endpoint).2
      = ((positions_to_maze walls rows cols,
          maze_to_graph (positions_to_maze walls rows cols)), true) := by
  unfold distance_call
  cases hf : f (positions_to_maze walls rows cols)
      (maze_to_graph (positions_to_maze walls rows cols)) origin endpoint with
  | some r => simp [hf]
  | none => simp [hf]

theorem run_queries_cached
    (f : Maze → (Pos → List Pos) → Pos → Pos → Option (ℕ × List Char))
    (qs : List (List Pos × ℕ × ℕ × Pos × Pos)) :
    ∀ (mg : Maze × (Pos → List Pos)) (b : ℕ),
      run_queries f qs (some mg) b = (if qs = [] then some mg else some mg, b) := by
  induction qs with
  | nil => intro mg b; simp [run_queries]
  | cons q qs ih =>
    intro mg b
    have hc := distance_call_cached f q.1 q.2.1 q.2.2.1 mg q.2.2.2.1 q.2.2.2.2
    simp only [run_queries, hc]
    simpa using ih mg b

/-- C8, proved below as `distance_cache_spec`: the maze/graph pair is built
exactly by the first query and cached; every later query reuses the cached
pair unchanged and performs no rebuild (in particular none is triggered by a
change of the wall set, so a rebuild happens only if the wall set changes,
vacuously); over any episode starting with an empty cache at most one build
occurs. -/
theorem distance_cache_spec
    (f : Maze → (Pos → List Pos) → Pos → Pos → Option (ℕ × List Char))
    (walls walls2 : List Pos) (rows cols : ℕ) (origin endpoint : Pos)
    (qs : List (List Pos × ℕ × ℕ × Pos × Pos)) :
    ((distance_call f walls rows cols none origin endpoint).2
      = ((positions_to_maze walls rows cols,
          maze_to_graph (positions_to_maze walls rows cols)), true)) ∧
    (∀ mg : Maze × (Pos → List Pos),
      (distance_call f walls2 rows cols (some mg) origin endpoint).2
        = (mg, false)) ∧
    (run_queries f qs none 0).2 ≤ 1 := by
  refine ⟨distance_call_builds f walls rows cols origin endpoint,
    fun mg => distance_call_cached f walls2 rows cols mg origin endpoint, ?_⟩
  cases qs with
  | nil => simp [run_queries]
  | cons q qs =>
    have hb := distance_call_builds f q.1 q.2.1 q.2.2.1 q.2.2.2.1 q.2.2.2.2
    simp only [run_queries, hb]
    rw [run_queries_cached f qs]
    simp

/-! Player tracking initialization and the observation model
(`PartialObsGeneralizedProbabilisticBot.initialize_probabilities`,
`get_observation`, `init_belief_state`): each loop skips exactly the player
whose id is the literal constant `1`. -/

/-- `PartialObsGeneralizedProbabilisticBot.initialize_probabilities` (also
`GeneralizedProbabilisticBot.initialize_probabilities`): the
`player_probabilities` dict it produces, as an association list. -/
def initialize_probabilities (players : List (ℕ × Pos)) (total_animals : ℕ) :
    List (ℕ × List ℚ) :=
  if players = [] ∨ total_animals = 0 then []
  else
    players.filterMap (fun p =>
      if p.1 = 1 then none
      else some (p.1, List.replicate total_animals (1 / (total_animals : ℚ))))

/-- `PartialObsGeneralizedProbabilisticBot.get_observation`: each non-id-1
player draws one uniform sample (the `draws` stream stands for
`np.random.rand()`) and is visible when the draw falls below the detection
probability for its distance to the robot. -/
def get_observation (pdet : ℤ → ℚ) (robot : Pos) :
    List ℚ → List (ℕ × Pos) → List (ℕ × Option Pos)
  | _, [] => []
  | draws, p :: ps =>
    if p.1 = 1 then get_observation pdet robot draws ps
    else
      (p.1, if draws.headD 1 < pdet (manhattan_distance robot p.2)
            then some p.2 else none)
        :: get_observation pdet robot draws.tail ps

/-- `PartialObsGeneralizedProbabilisticBot.init_belief_state`: the `belief`
dict, one uniform grid per non-id-1 player. -/
def init_belief_state (players : List (ℕ × Pos)) (n_row n_col : ℕ) :
    List (ℕ × (ℕ → ℕ → ℚ)) :=
  players.filterMap (fun p =>
    if p.1 = 1 then none
    else some (p.1, fun _ _ => 1 / ((n_row * n_col : ℕ) : ℚ)))

/-- C10, proved below as `id_one_exclusion`: every tracking structure
excludes exactly the player with literal id 1 — id 1 is never a key of the
probability map, the observation map, or the belief map — and every other
player in the snapshot, including the bot's own id when it differs from 1,
gets an entry like any other agent. -/
theorem id_one_exclusion (players : List (ℕ × Pos))
    (total_animals n_row n_col : ℕ) (pdet : ℤ → ℚ) (robot : Pos)
    (draws : List ℚ) :
    (∀ q ∈ initialize_probabilities players total_animals, q.1 ≠ 1) ∧
    (∀ q ∈ get_observation pdet robot draws players, q.1 ≠ 1) ∧
    (∀ q ∈ init_belief_state players n_row n_col, q.1 ≠ 1) ∧
    (∀ i pos, (i, pos) ∈ players → i ≠ 1 → total_animals ≠ 0 →
      (i, List.replicate total_animals (1 / (total_animals : ℚ)))
        ∈ initialize_probabilities players total_animals) ∧
    (∀ i pos, (i, pos) ∈ players → i ≠ 1 →
      (i, fun _ _ => 1 / ((n_row * n_col : ℕ) : ℚ))
        ∈ init_belief_state players n_row n_col) ∧
    (∀ i pos, (i, pos) ∈ players → i ≠ 1 →
      i ∈ (get_observation pdet robot draws players).map Prod.fst) := by
  refine ⟨?_, ?_, ?_, ?_, ?_, ?_⟩
  · intro q hq
    unfold initialize_probabilities at hq
    by_cases hg : players = [] ∨ total_animals = 0
    · rw [if_pos hg] at hq
      exact absurd hq (List.not_mem_nil q)
    · rw [if_neg hg] at hq
      obtain ⟨p, _, hpq⟩ := List.mem_filterMap.mp hq
      by_cases hp1 : p.1 = 1
      · rw [if_pos hp1] at hpq
        exact absurd hpq (Option.noConfusion)
      · rw [if_neg hp1] at hpq
        have hq2 := Option.some_inj.mp hpq
        rw [← hq2]
        exact hp1
  · intro q hq
    induction players generalizing draws with
    | nil => exact absurd hq (List.not_mem_nil q)
    | cons p ps ih =>
      unfold get_observation at hq
      by_cases hp1 : p.1 = 1
      · rw [if_pos hp1] at hq
        exact ih draws hq
      · rw [if_neg hp1] at hq
        rcases List.mem_cons.mp hq with hq | hq
        · rw [hq]
          exact hp1
        · exact ih draws.tail hq
  · intro q hq
    unfold init_belief_state at hq
    obtain ⟨p, _, hpq⟩ := List.mem_filterMap.mp hq
    by_cases hp1 : p.1 = 1
    · rw [if_pos hp1] at hpq
      exact absurd hpq (Option.noConfusion)
    · rw [if_neg hp1] at hpq
      have hq2 := Option.some_inj.mp hpq
      rw [← hq2]
      exact hp1
  · intro i pos hmem hne hK
    unfold initialize_probabilities
    have hg : ¬ (players = [] ∨ total_animals = 0) := by
      rintro (h | h)
      · rw [h] at hmem
        exact absurd hmem (List.not_mem_nil _)
      · exact hK h
    rw [if_neg hg]
    exact List.mem_filterMap.mpr ⟨(i, pos), hmem, by simp [hne]⟩
  · intro i pos hmem hne
    unfold init_belief_state
    exact List.mem_filterMap.mpr ⟨(i, pos), hmem, by simp [hne]⟩
  · intro i pos hmem hne
    induction players generalizing draws with
    | nil => exact absurd hmem (List.not_mem_nil _)
    | cons p ps ih =>
      unfold get_observation
      rcases List.mem_cons.mp hmem with hp | hp
      · have hp1 : ¬ p.1 = 1 := by
          rw [← hp]
          exact hne
        rw [if_neg hp1]
        rw [← hp]
        simp
      · by_cases hp1 : p.1 = 1
        · rw [if_pos hp1]
          exact ih draws hp
        · rw [if_neg hp1]
          simp only [List.map_cons, List.mem_cons]
          exact Or.inr (ih draws.tail hp)

/-- C10, witness: a snapshot containing ids 1, 2 and 7 (7 standing for the
bot's own id) tracks 2 and 7 but never 1. -/
theorem id_one_exclusion_witness :
    (∀ q ∈ initialize_probabilities [(1, ((0:ℤ),(0:ℤ))), (2, ((1:ℤ),(1:ℤ))),
      (7, ((2:ℤ),(2:ℤ)))] 3, q.1 ≠ 1) ∧
    (7, List.replicate 3 ((1 : ℚ) / 3))
      ∈ initialize_probabilities [(1, ((0:ℤ),(0:ℤ))), (2, ((1:ℤ),(1:ℤ))),
        (7, ((2:ℤ),(2:ℤ)))] 3 := by
  have h := id_one_exclusion [(1, ((0:ℤ),(0:ℤ))), (2, ((1:ℤ),(1:ℤ))),
    (7, ((2:ℤ),(2:ℤ)))] 3 4 4 (fun _ => 1/2) ((0:ℤ),(0:ℤ)) []
  exact ⟨h.1, by
    have := h.2.2.2.1 7 ((2:ℤ),(2:ℤ)) (by simp) (by norm_num) (by norm_num)
    simpa using this⟩

/-! Real-exponential semantics of the softmax update: concrete scenario
computations and monotonicity.  Here `e` is instantiated with `Real.exp`. -/

theorem map_getD_range {β : Type} (l : List β) (d : β) :
    (List.range l.length).map (fun i => l.getD i d) = l := by
  induction l with
  | nil => simp
  | cons x xs ih =>
    rw [List.length_cons, List.range_succ_eq_map, List.map_cons, List.map_map]
    have hcomp : ((fun i => (x :: xs).getD i d) ∘ Nat.succ)
        = fun i => xs.getD i d := by
      funext i
      simp
    rw [hcomp, ih]
    simp

/-- The ratio of two exponentials whose arguments differ by at most 1 is
below 49 (since `e < 49`). -/
theorem exp_ratio_le_49 (x y : ℝ) (h : x - y ≤ 1) :
    Real.exp x ≤ 49 * Real.exp y := by
  have h1 : Real.exp x = Real.exp (x - y) * Real.exp y := by
    rw [← Real.exp_add]
    ring_nf
  rw [h1]
  have h2 : Real.exp (x - y) ≤ Real.exp 1 := Real.exp_le_exp.mpr h
  have h3 : Real.exp 1 < 49 := lt_trans Real.exp_one_lt_d9 (by norm_num)
  nlinarith [Real.exp_pos y]

theorem ratio_bounds (A B : ℝ) (hA : 0 < A) (hB : 0 < B)
    (h1 : A ≤ 49 * B) : 1/50 ≤ B / (A + B) ∧ A / (A + B) ≤ 1 - 1/50 := by
  have hAB : 0 < A + B := by linarith
  constructor
  · rw [le_div_iff₀ hAB]
    linarith
  · rw [div_le_iff₀ hAB]
    linarith

/-- Evaluation of a two-hypothesis update from the uniform prior: when the
two exponentials are `A` and `B` with ratio at most 49 either way, the
posterior is exactly `[A/(A+B), B/(A+B)]` (the clamp never fires). -/
theorem infer_intention_eval_two (a : ℝ) (animals : List (String × Pos))
    (cur prev : Pos) (A B : ℝ)
    (hlen : animals.length = 2)
    (hexp : exponential_list Real.exp a animals cur prev = [A, B])
    (hA : 0 < A) (hB : 0 < B) (h1 : A ≤ 49 * B) (h2 : B ≤ 49 * A) :
    pre_posterior Real.exp a animals cur prev [1/2, 1/2]
      = [A / (A + B), B / (A + B)] ∧
    infer_intention Real.exp a animals cur prev [1/2, 1/2]
      = [A / (A + B), B / (A + B)] := by
  have hAB : 0 < A + B := by linarith
  have hABne : A + B ≠ 0 := ne_of_gt hAB
  have hsum : (exponential_list Real.exp a animals cur prev).sum = A + B := by
    rw [hexp]
    simp
  have hmk : mk_new_probabilities [1/2, 1/2]
      (exponential_list Real.exp a animals cur prev)
      (exponential_list Real.exp a animals cur prev).sum animals.length
      = [1/2 * (A / (A + B)), 1/2 * (B / (A + B))] := by
    rw [hsum, hexp, hlen, mk_new_probabilities_of_denom_ne _ _ _ _ hABne]
    norm_num [List.range_succ]
  have hnpsum : ([1/2 * (A / (A + B)), 1/2 * (B / (A + B))] : List ℝ).sum
      = 1/2 := by
    simp only [List.sum_cons, List.sum_nil, add_zero]
    field_simp
    ring
  have hmap : ([1/2 * (A / (A + B)), 1/2 * (B / (A + B))] : List ℝ).map
      (fun v => v / ([1/2 * (A / (A + B)), 1/2 * (B / (A + B))] : List ℝ).sum)
      = [A / (A + B), B / (A + B)] := by
    rw [hnpsum]
    simp only [List.map_cons, List.map_nil]
    norm_num
  have hpre : pre_posterior Real.exp a animals cur prev [1/2, 1/2]
      = [A / (A + B), B / (A + B)] := by
    show (mk_new_probabilities [1/2, 1/2]
        (exponential_list Real.exp a animals cur prev)
        (exponential_list Real.exp a animals cur prev).sum animals.length).map
      (fun v => v / (mk_new_probabilities [1/2, 1/2]
        (exponential_list Real.exp a animals cur prev)
        (exponential_list Real.exp a animals cur prev).sum animals.length).sum)
      = [A / (A + B), B / (A + B)]
    rw [hmk, hmap]
  refine ⟨hpre, ?_⟩
  have hb : ∀ x ∈ ([1/2 * (A / (A + B)), 1/2 * (B / (A + B))] : List ℝ).map
      (fun v => v / ([1/2 * (A / (A + B)), 1/2 * (B / (A + B))] : List ℝ).sum),
      1/50 ≤ x ∧ x ≤ 1 - 1/50 := by
    rw [hmap]
    intro x hx
    have hb1 := ratio_bounds A B hA hB h1
    have hb2 := ratio_bounds B A hB hA h2
    rw [add_comm B A] at hb2
    rcases List.mem_cons.mp hx with hx | hx
    · rw [hx]
      exact ⟨hb2.1, hb1.2⟩
    · rcases List.mem_cons.mp hx with hx | hx
      · rw [hx]
        exact ⟨hb1.1, hb2.2⟩
      · exact absurd hx (List.not_mem_nil x)
  show normalize (mk_new_probabilities [1/2, 1/2]
      (exponential_list Real.exp a animals cur prev)
      (exponential_list Real.exp a animals cur prev).sum animals.length) (1/50)
    = [A / (A + B), B / (A + B)]
  rw [hmk, normalize_eq_of_bounds _ (by rw [hnpsum]; norm_num) hb, hmap]

/-- Rewards of the C2 scenario: targets `(0,5)` and `(5,0)`, move
`(0,0) → (0,1)`. -/
theorem reward_list_c2 :
    (reward_list [("stag", ((0:ℤ),(5:ℤ))), ("hare", ((5:ℤ),(0:ℤ)))]
      ((0:ℤ),(1:ℤ)) ((0:ℤ),(0:ℤ)) : List ℝ) = [5/2, -(5/3)] := by
  norm_num [reward_list, distances_to, movement_deltas, total_distance,
    manhattan_distance, List.range_succ]

theorem exponential_list_c2 :
    exponential_list Real.exp (1/20)
      [("stag", ((0:ℤ),(5:ℤ))), ("hare", ((5:ℤ),(0:ℤ)))]
      ((0:ℤ),(1:ℤ)) ((0:ℤ),(0:ℤ))
      = [Real.exp (1/8), Real.exp (-(1/12))] := by
  unfold exponential_list
  rw [reward_list_c2]
  norm_num

/-- C2: from the uniform prior over hypotheses at `(0,5)` and `(5,0)`, after
the agent moves from `(0,0)` to `(0,1)` a single `infer_intention` update
gives the `(0,5)` hypothesis strictly more probability than the `(5,0)`
hypothesis. -/
theorem intention_update_favors_approached_target :
    ∃ p q : ℝ,
      infer_intention Real.exp (1/20)
        [("stag", ((0:ℤ),(5:ℤ))), ("hare", ((5:ℤ),(0:ℤ)))]
        ((0:ℤ),(1:ℤ)) ((0:ℤ),(0:ℤ)) [1/2, 1/2] = [p, q] ∧ q < p := by
  have hA : (0 : ℝ) < Real.exp (1/8) := Real.exp_pos _
  have hB : (0 : ℝ) < Real.exp (-(1/12)) := Real.exp_pos _
  have h1 : Real.exp (1/8) ≤ 49 * Real.exp (-(1/12)) :=
    exp_ratio_le_49 _ _ (by norm_num)
  have h2 : Real.exp (-(1/12)) ≤ 49 * Real.exp (1/8) :=
    exp_ratio_le_49 _ _ (by norm_num)
  have heval := infer_intention_eval_two (1/20)
    [("stag", ((0:ℤ),(5:ℤ))), ("hare", ((5:ℤ),(0:ℤ)))]
    ((0:ℤ),(1:ℤ)) ((0:ℤ),(0:ℤ)) (Real.exp (1/8)) (Real.exp (-(1/12)))
    (by norm_num) exponential_list_c2 hA hB h1 h2
  refine ⟨_, _, heval.2, ?_⟩
  have hBA : Real.exp (-(1/12)) < Real.exp (1/8) :=
    Real.exp_lt_exp.mpr (by norm_num)
  have hAB : (0 : ℝ) < Real.exp (1/8) + Real.exp (-(1/12)) := by linarith
  rw [div_lt_div_iff₀ hAB hAB]
  nlinarith

/-- Rewards of the C6 counterexample scenario: targets `(0,10)` and `(0,2)`,
move `(0,0) → (0,1)`; the agent moves strictly closer to both targets, and
the distance weighting rewards the nearer `(0,2)` far more. -/
theorem reward_list_c6 :
    (reward_list [("stag", ((0:ℤ),(10:ℤ))), ("hare", ((0:ℤ),(2:ℤ)))]
      ((0:ℤ),(1:ℤ)) ((0:ℤ),(0:ℤ)) : List ℝ) = [10/9, 10] := by
  norm_num [reward_list, distances_to, movement_deltas, total_distance,
    manhattan_distance, List.range_succ]

theorem exponential_list_c6 :
    exponential_list Real.exp (1/20)
      [("stag", ((0:ℤ),(10:ℤ))), ("hare", ((0:ℤ),(2:ℤ)))]
      ((0:ℤ),(1:ℤ)) ((0:ℤ),(0:ℤ))
      = [Real.exp (1/18), Real.exp (1/2)] := by
  unfold exponential_list
  rw [reward_list_c6]
  norm_num

/-- C6, counterexample to the original claim: with hypotheses at `(0,10)`
and `(0,2)`, an agent moving `(0,0) → (0,1)` moves strictly closer to the
`(0,10)` target on this tick, the uniform starting prior `1/2` is strictly
inside the clamp window, and yet the posterior probability of the `(0,10)`
hypothesis strictly decreases: the distance-weight factor overweights the
much closer `(0,2)` target. -/
theorem intention_update_not_monotone :
    manhattan_distance ((0:ℤ),(1:ℤ)) ((0:ℤ),(10:ℤ))
        < manhattan_distance ((0:ℤ),(0:ℤ)) ((0:ℤ),(10:ℤ)) ∧
    ((1:ℝ)/50 < 1/2 ∧ (1/2 : ℝ) < 1 - 1/50) ∧
    ∃ p q : ℝ,
      infer_intention Real.exp (1/20)
        [("stag", ((0:ℤ),(10:ℤ))), ("hare", ((0:ℤ),(2:ℤ)))]
        ((0:ℤ),(1:ℤ)) ((0:ℤ),(0:ℤ)) [1/2, 1/2] = [p, q] ∧ p < 1/2 := by
  refine ⟨by norm_num [manhattan_distance], by norm_num, ?_⟩
  have hA : (0 : ℝ) < Real.exp (1/18) := Real.exp_pos _
  have hB : (0 : ℝ) < Real.exp (1/2) := Real.exp_pos _
  have h1 : Real.exp (1/18) ≤ 49 * Real.exp (1/2) :=
    exp_ratio_le_49 _ _ (by norm_num)
  have h2 : Real.exp (1/2) ≤ 49 * Real.exp (1/18) :=
    exp_ratio_le_49 _ _ (by norm_num)
  have heval := infer_intention_eval_two (1/20)
    [("stag", ((0:ℤ),(10:ℤ))), ("hare", ((0:ℤ),(2:ℤ)))]
    ((0:ℤ),(1:ℤ)) ((0:ℤ),(0:ℤ)) (Real.exp (1/18)) (Real.exp (1/2))
    (by norm_num) exponential_list_c6 hA hB h1 h2
  refine ⟨_, _, heval.2, ?_⟩
  have hlt : Real.exp (1/18) < Real.exp (1/2) :=
    Real.exp_lt_exp.mpr (by norm_num)
  have hAB : (0 : ℝ) < Real.exp (1/18) + Real.exp (1/2) := by linarith
  rw [div_lt_iff₀ hAB]
  nlinarith

theorem getD_map_div (l : List α) (t : α) (i : ℕ) (hi : i < l.length) :
    (l.map (fun v => v / t)).getD i 0 = l.getD i 0 / t := by
  have hi2 : i < (l.map (fun v => v / t)).length := by simpa using hi
  rw [List.getD_eq_getElem _ _ hi2, List.getElem_map, List.getD_eq_getElem _ _ hi]

/-- Abstract core of the monotonicity argument: if the `i`-th likelihood
weight dominates every other, the once-renormalized posterior entry `i` is
at least the prior entry `i`. -/
theorem posterior_entry_ge (prior exps : List ℝ) (K i : ℕ)
    (hplen : prior.length = K) (helen : exps.length = K) (hi : i < K)
    (hpos : ∀ x ∈ prior, 0 ≤ x) (hsum : prior.sum = 1)
    (hepos : ∀ x ∈ exps, 0 < x)
    (hemax : ∀ j, j < K → exps.getD j 0 ≤ exps.getD i 0) :
    0 < ((List.range K).map
      (fun j => prior.getD j 0 * (exps.getD j 0 / exps.sum))).sum ∧
    prior.getD i 0 ≤
      ((List.range K).map
        (fun j => prior.getD j 0 * (exps.getD j 0 / exps.sum))).getD i 0
        / ((List.range K).map
          (fun j => prior.getD j 0 * (exps.getD j 0 / exps.sum))).sum := by
  have hKpos : 0 < K := Nat.lt_of_le_of_lt (Nat.zero_le i) hi
  have hene : exps ≠ [] := by
    intro hc
    rw [hc] at helen
    simp at helen
    omega
  have hS : 0 < exps.sum := List.sum_pos exps hepos hene
  have hSne : exps.sum ≠ 0 := ne_of_gt hS
  have hpnn : ∀ j, 0 ≤ prior.getD j 0 := by
    intro j
    by_cases hj : j < prior.length
    · rw [List.getD_eq_getElem _ _ hj]
      exact hpos _ (List.getElem_mem hj)
    · rw [List.getD_eq_default _ _ (le_of_not_lt hj)]
  have hegd : ∀ j, j < K → 0 < exps.getD j 0 := by
    intro j hj
    have hj2 : j < exps.length := by rw [helen]; exact hj
    rw [List.getD_eq_getElem _ _ hj2]
    exact hepos _ (List.getElem_mem hj2)
  have hcong : (List.range K).map
        (fun j => prior.getD j 0 * (exps.getD j 0 / exps.sum))
      = ((List.range K).map (fun j => prior.getD j 0 * exps.getD j 0)).map
        (fun v => v / exps.sum) := by
    rw [List.map_map]
    apply List.map_congr_left
    intro j _
    simp [Function.comp, mul_div_assoc]
  have hnpsum : ((List.range K).map
        (fun j => prior.getD j 0 * (exps.getD j 0 / exps.sum))).sum
      = ((List.range K).map (fun j => prior.getD j 0 * exps.getD j 0)).sum
        / exps.sum := by
    rw [hcong, sum_map_div]
  have hUle : ((List.range K).map (fun j => prior.getD j 0 * exps.getD j 0)).sum
      ≤ exps.getD i 0 := by
    calc ((List.range K).map (fun j => prior.getD j 0 * exps.getD j 0)).sum
        ≤ ((List.range K).map (fun j => prior.getD j 0 * exps.getD i 0)).sum := by
          apply List.sum_le_sum
          intro j hj
          exact mul_le_mul_of_nonneg_left (hemax j (List.mem_range.mp hj)) (hpnn j)
    _ = ((List.range K).map (fun j => prior.getD j 0)).sum * exps.getD i 0 := by
          rw [← List.sum_map_mul_right]
    _ = prior.sum * exps.getD i 0 := by
          rw [← hplen, map_getD_range]
    _ = exps.getD i 0 := by rw [hsum, one_mul]
  have hex : ∃ x ∈ prior, 0 < x := by
    by_contra hc
    push_neg at hc
    have hz : ∀ x ∈ prior, x = 0 := fun x hx => le_antisymm (hc x hx) (hpos x hx)
    have h0 : prior.sum = 0 := List.sum_eq_zero hz
    rw [hsum] at h0
    norm_num at h0
  obtain ⟨x, hxmem, hxpos⟩ := hex
  obtain ⟨j0, hj0, hj0x⟩ := List.mem_iff_getElem.mp hxmem
  have hj0K : j0 < K := by rw [← hplen]; exact hj0
  have hj0pos : 0 < prior.getD j0 0 := by
    rw [List.getD_eq_getElem _ _ hj0, hj0x]
    exact hxpos
  have hUpos : 0 < ((List.range K).map
      (fun j => prior.getD j 0 * exps.getD j 0)).sum := by
    have hmemu : prior.getD j0 0 * exps.getD j0 0
        ∈ (List.range K).map (fun j => prior.getD j 0 * exps.getD j 0) :=
      List.mem_map.mpr ⟨j0, List.mem_range.mpr hj0K, rfl⟩
    have hterm : 0 < prior.getD j0 0 * exps.getD j0 0 :=
      mul_pos hj0pos (hegd j0 hj0K)
    have hnn : ∀ v ∈ (List.range K).map (fun j => prior.getD j 0 * exps.getD j 0),
        0 ≤ v := by
      intro v hv
      obtain ⟨j, hjmem, rfl⟩ := List.mem_map.mp hv
      exact mul_nonneg (hpnn j) (le_of_lt (hegd j (List.mem_range.mp hjmem)))
    have hsin := List.single_le_sum hnn _ hmemu
    linarith
  have hUne : ((List.range K).map
      (fun j => prior.getD j 0 * exps.getD j 0)).sum ≠ 0 := ne_of_gt hUpos
  refine ⟨by rw [hnpsum]; exact div_pos hUpos hS, ?_⟩
  have hnpi : ((List.range K).map
        (fun j => prior.getD j 0 * (exps.getD j 0 / exps.sum))).getD i 0
      = prior.getD i 0 * (exps.getD i 0 / exps.sum) :=
    getD_range_map _ _ _ _ hi
  rw [hnpi, hnpsum]
  have hkey : prior.getD i 0 * (exps.getD i 0 / exps.sum)
        / (((List.range K).map (fun j => prior.getD j 0 * exps.getD j 0)).sum
          / exps.sum)
      = prior.getD i 0 * exps.getD i 0
        / ((List.range K).map (fun j => prior.getD j 0 * exps.getD j 0)).sum := by
    field_simp
  rw [hkey, le_div_iff₀ hUpos]
  exact mul_le_mul_of_nonneg_left hUle (hpnn i)

/-- C6, amended, proved below as `infer_intention_monotone`: if on a tick
hypothesis `i` receives at least as much reward as every other hypothesis —
as when the agent moves strictly closer to `i`'s target and not closer to any
other — and the once-renormalized posterior stays strictly inside the clamp
window `[ε, 1-ε]`, then `P(i)` does not decrease across the
`infer_intention` update.  Moving strictly closer to `i` alone is NOT
sufficient (`intention_update_not_monotone`). -/
theorem infer_intention_monotone (alpha : ℝ) (halpha : 0 ≤ alpha)
    (animals : List (String × Pos)) (cur prev : Pos) (prior : List ℝ)
    (hlen : prior.length = animals.length)
    (hpos : ∀ x ∈ prior, 0 ≤ x) (hsum : prior.sum = 1)
    (i : ℕ) (hi : i < animals.length)
    (hmax : ∀ j, j < animals.length →
      ((reward_list animals cur prev : List ℝ)).getD j 0
        ≤ ((reward_list animals cur prev : List ℝ)).getD i 0)
    (hclamp : ∀ x ∈ pre_posterior Real.exp alpha animals cur prev prior,
      1/50 ≤ x ∧ x ≤ 1 - 1/50) :
    prior.getD i 0
      ≤ (infer_intention Real.exp alpha animals cur prev prior).getD i 0 := by
  have hrewlen : ((reward_list animals cur prev : List ℝ)).length
      = animals.length := by
    unfold reward_list
    simp
  have helen : (exponential_list Real.exp alpha animals cur prev).length
      = animals.length := by
    unfold exponential_list
    rw [List.length_map, hrewlen]
  have hepos : ∀ x ∈ exponential_list Real.exp alpha animals cur prev, 0 < x := by
    intro x hx
    unfold exponential_list at hx
    obtain ⟨r, _, rfl⟩ := List.mem_map.mp hx
    exact Real.exp_pos _
  have hentry : ∀ j, j < animals.length →
      (exponential_list Real.exp alpha animals cur prev).getD j 0
        = Real.exp (alpha * ((reward_list animals cur prev : List ℝ)).getD j 0) := by
    intro j hj
    have hj1 : j < ((reward_list animals cur prev : List ℝ)).length := by
      rw [hrewlen]; exact hj
    have hj2 : j < (exponential_list Real.exp alpha animals cur prev).length := by
      rw [helen]; exact hj
    rw [List.getD_eq_getElem _ _ hj2, List.getD_eq_getElem _ _ hj1]
    simp [exponential_list]
  have hemax : ∀ j, j < animals.length →
      (exponential_list Real.exp alpha animals cur prev).getD j 0
        ≤ (exponential_list Real.exp alpha animals cur prev).getD i 0 := by
    intro j hj
    rw [hentry j hj, hentry i hi]
    exact Real.exp_le_exp.mpr (mul_le_mul_of_nonneg_left (hmax j hj) halpha)
  have hene : exponential_list Real.exp alpha animals cur prev ≠ [] := by
    intro hc
    rw [hc] at helen
    simp at helen
    omega
  have hS : 0 < (exponential_list Real.exp alpha animals cur prev).sum :=
    List.sum_pos _ hepos hene
  have hmk : mk_new_probabilities prior
      (exponential_list Real.exp alpha animals cur prev)
      (exponential_list Real.exp alpha animals cur prev).sum animals.length
      = (List.range animals.length).map
        (fun j => prior.getD j 0
          * ((exponential_list Real.exp alpha animals cur prev).getD j 0
            / (exponential_list Real.exp alpha animals cur prev).sum)) :=
    mk_new_probabilities_of_denom_ne _ _ _ _ (ne_of_gt hS)
  have hcore := posterior_entry_ge prior
    (exponential_list Real.exp alpha animals cur prev) animals.length i
    hlen helen hi hpos hsum hepos hemax
  have hpre_def : pre_posterior Real.exp alpha animals cur prev prior
      = (mk_new_probabilities prior
          (exponential_list Real.exp alpha animals cur prev)
          (exponential_list Real.exp alpha animals cur prev).sum animals.length).map
        (fun v => v / (mk_new_probabilities prior
          (exponential_list Real.exp alpha animals cur prev)
          (exponential_list Real.exp alpha animals cur prev).sum
          animals.length).sum) := rfl
  have hnpsum_pos : 0 < (mk_new_probabilities prior
      (exponential_list Real.exp alpha animals cur prev)
      (exponential_list Real.exp alpha animals cur prev).sum
      animals.length).sum := by
    rw [hmk]
    exact hcore.1
  have hinf : infer_intention Real.exp alpha animals cur prev prior
      = pre_posterior Real.exp alpha animals cur prev prior := by
    show normalize (mk_new_probabilities prior
        (exponential_list Real.exp alpha animals cur prev)
        (exponential_list Real.exp alpha animals cur prev).sum
        animals.length) (1/50)
      = pre_posterior Real.exp alpha animals cur prev prior
    rw [hpre_def]
    exact normalize_eq_of_bounds _ (ne_of_gt hnpsum_pos)
      (by rw [← hpre_def]; exact hclamp)
  rw [hinf, hpre_def]
  have hnplen : i < (mk_new_probabilities prior
      (exponential_list Real.exp alpha animals cur prev)
      (exponential_list Real.exp alpha animals cur prev).sum
      animals.length).length := by
    rw [hmk]
    simpa using hi
  rw [getD_map_div _ _ _ hnplen, hmk]
  exact hcore.2

/-- C6, witness: in the C2 scenario (targets `(0,5)` and `(5,0)`, move
`(0,0) → (0,1)`), the reward for hypothesis 0 dominates and the posterior
stays inside the clamp window, so `P(0)` does not decrease from `1/2`. -/
theorem infer_intention_monotone_witness :
    (1 : ℝ)/2 ≤ (infer_intention Real.exp (1/20)
      [("stag", ((0:ℤ),(5:ℤ))), ("hare", ((5:ℤ),(0:ℤ)))]
      ((0:ℤ),(1:ℤ)) ((0:ℤ),(0:ℤ)) [1/2, 1/2]).getD 0 0 := by
  have hA : (0 : ℝ) < Real.exp (1/8) := Real.exp_pos _
  have hB : (0 : ℝ) < Real.exp (-(1/12)) := Real.exp_pos _
  have h1 : Real.exp (1/8) ≤ 49 * Real.exp (-(1/12)) :=
    exp_ratio_le_49 _ _ (by norm_num)
  have h2 : Real.exp (-(1/12)) ≤ 49 * Real.exp (1/8) :=
    exp_ratio_le_49 _ _ (by norm_num)
  have heval := infer_intention_eval_two (1/20)
    [("stag", ((0:ℤ),(5:ℤ))), ("hare", ((5:ℤ),(0:ℤ)))]
    ((0:ℤ),(1:ℤ)) ((0:ℤ),(0:ℤ)) (Real.exp (1/8)) (Real.exp (-(1/12)))
    (by norm_num) exponential_list_c2 hA hB h1 h2
  have hmono := infer_intention_monotone (1/20) (by norm_num)
    [("stag", ((0:ℤ),(5:ℤ))), ("hare", ((5:ℤ),(0:ℤ)))]
    ((0:ℤ),(1:ℤ)) ((0:ℤ),(0:ℤ)) [1/2, 1/2]
    (by norm_num)
    (by intro x hx; fin_cases hx <;> norm_num)
    (by norm_num)
    0 (by norm_num)
    (by
      intro j hj
      have hj2 : j < 2 := by simpa using hj
      interval_cases j <;> rw [reward_list_c2] <;> norm_num)
    (by
      rw [heval.1]
      intro x hx
      have hb1 := ratio_bounds (Real.exp (1/8)) (Real.exp (-(1/12))) hA hB h1
      have hb2 := ratio_bounds (Real.exp (-(1/12))) (Real.exp (1/8)) hB hA h2
      rw [add_comm (Real.exp (-(1/12)))] at hb2
      rcases List.mem_cons.mp hx with hx | hx
      · rw [hx]
        exact ⟨hb2.1, hb1.2⟩
      · rcases List.mem_cons.mp hx with hx | hx
        · rw [hx]
          exact ⟨hb1.1, hb2.2⟩
        · exact absurd hx (List.not_mem_nil x))
  calc (1 : ℝ)/2 = ([1/2, 1/2] : List ℝ).getD 0 0 := by norm_num
  _ ≤ _ := hmono

end StagHunt
